import Mathlib

/-!
Shallow embedding of the quantized linear-algebra circuit builders in
`examples/matrix_remy.rs` (ZkVector, ZkMatrix, the Freivalds-style product
verifier, the tolerance comparators, and the challenge derivation of
`zk_random_verif_algo`).

Modelling conventions, fixed once for the whole file:

* An `AssignedValue<F>` is modelled by its field value.  Witness generation in
  the builder is deterministic: `ctx.load_witness(v)` yields the value `v`, and
  every arithmetic gate (`add`, `mul`, `inner_product`, `signed_div_scale`)
  assigns to its output cell the value it computes from its inputs, emitting
  only constraints that this honest assignment satisfies by construction.
  Consequently the emitted constraint set is satisfiable exactly when every
  assertion-style constraint (`assert_is_const` and
  `range.check_less_than_safe`) holds on the computed values; each builder
  below therefore returns the conjunction of its assertion-style constraints
  as a `Prop`.

* The constraint engine, fixed-point codec and Poseidon sponge are external
  collaborators; they are modelled from their interface contracts:
  `gate.inner_product` is the sum of products of the two cell lists,
  `check_less_than_safe x bound` constrains the canonical integer
  representative `x.val` to be `< bound`, `gate.is_equal x y` computes and
  RETURNS an indicator cell (honest value `1` when `x = y`, else `0`)
  without constraining its inputs in any way, and the sponge absorbs lists
  of field elements and squeezes a hash of everything absorbed (the Poseidon
  permutation itself is kept abstract as a function `H`).  Field elements
  are `ZMod p` wherever the canonical representative matters, and an
  arbitrary commutative ring elsewhere.

* Real-number inputs go through the external quantization codec before they
  reach the circuit; builders are therefore modelled on already-quantized
  data.  In particular `check_mat_diff` is parametrized by the scaled
  tolerance `quant_tol` (the value `(tol * 2^PRECISION_BITS) as u64` computed
  by the Rust code) rather than by the real `tol`.

* Rust panics (index out of bounds, a failed `assert!`/`assert_eq!`, and
  debug-mode usize subtraction overflow) are modelled with `Except PanicKind`.
  A builder that can panic returns `Except PanicKind Prop`: an `error` is a
  construction-time panic, an `ok` carries the emitted constraint set.
-/

/-- Kinds of Rust panics that the builders in `matrix_remy.rs` can hit. -/
inductive PanicKind : Type where
  | indexOutOfBounds : PanicKind
  | assertionFailed : PanicKind
  | subtractUnderflow : PanicKind
deriving DecidableEq

/-- Checked `usize` subtraction: Rust `a - b` on unsigned integers panics
(overflow in debug builds) when `b > a`. -/
def usizeSub (a b : ℕ) : Option ℕ :=
  if b ≤ a then some (a - b) else none

/-- Matrix entry access `m[i][j]` (used only at indices the Rust code has
already bounds-checked; out-of-range access is modelled separately where the
panic itself is the point). -/
def matGet {F : Type} [Zero F] (m : List (List F)) (i j : ℕ) : F :=
  (m.getD i []).getD j 0

/-- A `num_rows × num_col` rectangular shape, the invariant `ZkMatrix::new`
establishes: `num_rows` rows, each of length `num_col`. -/
def IsRect {α : Type} (m : List (List α)) (rows cols : ℕ) : Prop :=
  m.length = rows ∧ ∀ row ∈ m, row.length = cols

instance {α : Type} (m : List (List α)) (rows cols : ℕ) : Decidable (IsRect m rows cols) := by
  unfold IsRect
  infer_instance

/-- Engine contract of `gate.inner_product` on two cell lists: the sum of the
pairwise products (the two lists are zipped, as in the engine). -/
def innerProd {F : Type} [CommRing F] (u w : List F) : F :=
  (List.zipWith (fun x y => x * y) u w).sum

/-- The function `field_mat_vec_mul` of `matrix_remy.rs`: one engine
`inner_product` of each row of `a` with `v`.  Every emitted constraint just
defines the corresponding output cell, so the output values are the whole
content of the call. -/
def field_mat_vec_mul {F : Type} [CommRing F] (a : List (List F)) (v : List F) : List F :=
  a.map fun row => innerProd row v

/-- The power vector built inside `ZkMatrix::verify_mul`: starting from the
constant `1`, each next entry is the previous entry times `r` (an in-circuit
`mul` gate, so the cell values are exactly these products). -/
def powersAux {F : Type} [CommRing F] (r x : F) : ℕ → List F
  | 0 => []
  | n + 1 => x :: powersAux r (x * r) n

/-- The vector `v = (1, r, r^2, ...)` of length `d` of `ZkMatrix::verify_mul`. -/
def powerVec {F : Type} [CommRing F] (r : F) (d : ℕ) : List F :=
  powersAux r 1 d

/-- The struct `ZkMatrix` of `matrix_remy.rs`. -/
structure ZkMatrix (F : Type) where
  matrix : List (List F)
  num_rows : ℕ
  num_col : ℕ

/-- The struct `ZkVector` of `matrix_remy.rs`. -/
structure ZkVector (F : Type) where
  v : List F

/-- Engine contract of `gate.is_equal(x, y)`: it computes and returns an
indicator cell whose honest value is `1` when `x = y` and `0` otherwise (an
is-zero gadget on `x - y`, whose internal constraints only define the output
and are satisfied by the honest assignment for every `x`, `y`).  It asserts
nothing about its inputs; constraining the returned bit is the caller's
job. -/
def is_equal_val {F : Type} [CommRing F] [DecidableEq F] (x y : F) : F :=
  if x = y then 1 else 0

/-- Satisfiability of the constraint set emitted by `ZkMatrix::verify_mul`:
the only assertion-style constraint the method emits is `assert_is_const` on
the cell it loads with `F::one()`, satisfied by the honest value `1`.  The
`mul` gates building the power vector `v = (1, r, ..., r^(d-1))`, the three
`inner_product` reductions and the internals of `gate.is_equal` only define
their output cells from their inputs and are satisfied by the honestly
computed values.  The final loop calls `gate.is_equal((c_s·v)[i],
(a·(b·v))[i])` and DISCARDS the returned indicator bit (`verify_mul_bits`
below), so no emitted constraint relates `c_s·v` to `a·(b·v)`: the
constraint set is satisfiable for every input.  The Rust asserts on the
shapes remain construction-time preconditions. -/
def ZkMatrix.verify_mul {F : Type} [CommRing F] (_a _b : ZkMatrix F)
    (_c_s : List (List F)) (_r : F) : Prop :=
  (1 : F) = 1

instance {F : Type} [CommRing F] [DecidableEq F] (a b : ZkMatrix F)
    (c_s : List (List F)) (r : F) : Decidable (a.verify_mul b c_s r) := by
  unfold ZkMatrix.verify_mul
  infer_instance

/-- The indicator bits `gate.is_equal((c_s·v)[i], (a·(b·v))[i])` computed —
and then discarded, never constrained — by the final loop of
`ZkMatrix::verify_mul`, for `i` below `(c_s·v).len()`. -/
def ZkMatrix.verify_mul_bits {F : Type} [CommRing F] [DecidableEq F]
    (a b : ZkMatrix F) (c_s : List (List F)) (r : F) : List F :=
  (List.range (field_mat_vec_mul c_s (powerVec r (c_s.getD 0 []).length)).length).map
    fun i =>
      is_equal_val
        ((field_mat_vec_mul c_s (powerVec r (c_s.getD 0 []).length)).getD i 0)
        ((field_mat_vec_mul a.matrix
          (field_mat_vec_mul b.matrix (powerVec r (c_s.getD 0 []).length))).getD i 0)

/-- Modelled from the spec: the componentwise equalities
`(c_s·v)[i] = (a·(b·v))[i]` that step 3 of the specification's `verify_mul`
calls for ("Assert `c_s · v == a · (b · v)` componentwise", the engine op
`assert_equal` of its interface).  The code computes the indicator bits of
exactly these equalities (`verify_mul_bits`) but never constrains them, so
this predicate is what `verify_mul` was meant to — but does not — add to
its constraint set. -/
def verify_mul_asserted_eqs {F : Type} [CommRing F] (a b : ZkMatrix F)
    (c_s : List (List F)) (r : F) : Prop :=
  ∀ i < (field_mat_vec_mul c_s (powerVec r (c_s.getD 0 []).length)).length,
    (field_mat_vec_mul c_s (powerVec r (c_s.getD 0 []).length)).getD i 0 =
      (field_mat_vec_mul a.matrix
        (field_mat_vec_mul b.matrix (powerVec r (c_s.getD 0 []).length))).getD i 0

instance {F : Type} [CommRing F] [DecidableEq F] (a b : ZkMatrix F)
    (c_s : List (List F)) (r : F) : Decidable (verify_mul_asserted_eqs a b c_s r) := by
  unfold verify_mul_asserted_eqs
  infer_instance

/-- The function `field_mat_mul` of `matrix_remy.rs` (out-of-circuit trivial
`O(N^3)` product of the cell values): `N = a.len()`, `K = a[0].len()`,
`M = b[0].len()`, entry `(i, j)` accumulated as `elem += a[i][k] * b[k][j]`.
The Rust out-of-circuit assert `a[0].len() == b.len()` (and the panics of
`a[0]`/`b[0]` on empty inputs) are preconditions, appearing as hypotheses. -/
def field_mat_mul {F : Type} [CommRing F] (a b : List (List F)) : List (List F) :=
  (List.range a.length).map fun i =>
    (List.range (b.getD 0 []).length).map fun j =>
      (List.range (a.getD 0 []).length).foldl (fun elem k => elem + matGet a i k * matGet b k j) 0

/-- Mathematical matrix-product entry `(a·b)_{i j} = ∑_{k < kk} a_{i k} b_{k j}`,
the reference value against which a claimed product is compared ("`c_s ≠ a·b`
as field matrices" in the specification). -/
def matProdEntry {F : Type} [CommRing F] (a b : List (List F)) (kk i j : ℕ) : F :=
  ∑ k ∈ Finset.range kk, matGet a i k * matGet b k j

/-- The function `ZkMatrix::transpose_matrix`: pure reindexing of the existing
cells, `a_trans[i][j] = a.matrix[j][i]` for `i < a.num_col`, `j < a.num_rows`;
it touches neither the context nor the fixed-point chip, so it emits no
constraint and allocates no witness. -/
def ZkMatrix.transpose_matrix {F : Type} [Zero F] (a : ZkMatrix F) : ZkMatrix F where
  matrix := (List.range a.num_col).map fun i =>
    (List.range a.num_rows).map fun j => matGet a.matrix j i
  num_rows := a.num_col
  num_col := a.num_rows

/-- The constructor `ZkMatrix::new`: it reads `num_rows = matrix.len()` and
then `num_col = matrix[0].len()` — an index panic on a zero-row input —
before asserting that every row has length `num_col`; on success every entry
is quantized (external codec, abstracted as `quantize`) and loaded as a
witness. -/
def ZkMatrix.new {α F : Type} (quantize : α → F) (matrix : List (List α)) :
    Except PanicKind (ZkMatrix F) :=
  match matrix with
  | [] => Except.error PanicKind.indexOutOfBounds
  | r0 :: rest =>
    if ∀ row ∈ r0 :: rest, row.length = r0.length then
      Except.ok
        { matrix := (r0 :: rest).map fun row => row.map quantize,
          num_rows := (r0 :: rest).length,
          num_col := r0.length }
    else Except.error PanicKind.assertionFailed

/-- Constraint set emitted by `ZkVector::entries_less_than` when the loop
bound `t = self.v.len() - 1` is computed without panic: each entry is
range-checked below `2^max_bits`, and each consecutive difference
`v[i] - v[i+1]` (an in-circuit `qsub`, i.e. field subtraction) is
range-checked below `2^max_bits` as well. -/
def ZkVector.entries_less_than_cs {p : ℕ} (self : ZkVector (ZMod p))
    (max_bits t : ℕ) : Prop :=
  (∀ i < self.v.length, (self.v.getD i 0).val < 2 ^ max_bits) ∧
  (∀ i < t, (self.v.getD i 0 - self.v.getD (i + 1) 0).val < 2 ^ max_bits)

/-- The method `ZkVector::entries_less_than`: the loop bound
`self.v.len() - 1` is unsigned subtraction, which panics on an empty vector;
otherwise the constraints `entries_less_than_cs` are emitted. -/
def ZkVector.entries_less_than {p : ℕ} (self : ZkVector (ZMod p))
    (max_bits : ℕ) : Except PanicKind Prop :=
  match usizeSub self.v.length 1 with
  | none => Except.error PanicKind.subtractUnderflow
  | some t => Except.ok (self.entries_less_than_cs max_bits t)

/-- Constraint set emitted by `ZkMatrix::check_mat_diff` on the non-panicking
path: for every `i < a.len()` and `j < a[0].len()`, the shifted difference
`(a[i][j] - b[i][j]) + quant_tol` is range-checked below `2 * quant_tol`. -/
def check_mat_diff_cs {p : ℕ} (a b : List (List (ZMod p))) (quant_tol : ℕ) : Prop :=
  ∀ i < a.length, ∀ j < (a.getD 0 []).length,
    ((matGet a i j - matGet b i j) + (quant_tol : ZMod p)).val < 2 * quant_tol

instance {p : ℕ} (a b : List (List (ZMod p))) (quant_tol : ℕ) :
    Decidable (check_mat_diff_cs a b quant_tol) := by
  unfold check_mat_diff_cs
  infer_instance

/-- The method `ZkMatrix::check_mat_diff`, with its panics: it asserts
`a.len() == b.len()`, reads `a[0]`/`b[0]` (index panic on empty input),
asserts `a[0].len() == b[0].len()`, and then loops over `i < a.len()`,
`j < a[0].len()` accessing `a[i][j]` and `b[i][j]` — an index panic as soon
as some accessed row is shorter than `a[0]`.  The scaled tolerance
`quant_tol` stands for the value `(tol * 2^PRECISION_BITS) as u64`. -/
def check_mat_diff {p : ℕ} (a b : List (List (ZMod p))) (quant_tol : ℕ) :
    Except PanicKind Prop :=
  if a.length = b.length then
    match a, b with
    | [], _ => Except.error PanicKind.indexOutOfBounds
    | _ :: _, [] => Except.error PanicKind.indexOutOfBounds
    | a0 :: arest, b0 :: brest =>
      if a0.length = b0.length then
        if ∀ i < (a0 :: arest).length,
            a0.length ≤ ((a0 :: arest).getD i []).length ∧
            a0.length ≤ ((b0 :: brest).getD i []).length then
          Except.ok (check_mat_diff_cs (a0 :: arest) (b0 :: brest) quant_tol)
        else Except.error PanicKind.indexOutOfBounds
      else Except.error PanicKind.assertionFailed
  else Except.error PanicKind.assertionFailed

/-- Sponge state of the external Poseidon chip, modelled from its interface
contract: the state is the list of absorbed field elements, and squeezing
applies an abstract hash `H` to everything absorbed. -/
structure Sponge (F : Type) where
  absorbed : List F

/-- Fresh sponge, `PoseidonChip::new`. -/
def Sponge.new (F : Type) : Sponge F := ⟨[]⟩

/-- Absorption, `poseidon.update(row)`. -/
def Sponge.update {F : Type} (s : Sponge F) (xs : List F) : Sponge F :=
  ⟨s.absorbed ++ xs⟩

/-- Squeezing one field element, `poseidon.squeeze`. -/
def Sponge.squeeze {F : Type} (H : List F → F) (s : Sponge F) : F :=
  H s.absorbed

/-- The method `ZkMatrix::hash_matrix_list`: absorb every row of every matrix
in the list into a fresh sponge, then squeeze one challenge. -/
def ZkMatrix.hash_matrix_list {F : Type} (H : List F → F)
    (matrix_list : List (ZkMatrix F)) : F :=
  Sponge.squeeze H
    (matrix_list.foldl
      (fun s mat => mat.matrix.foldl (fun s2 row => s2.update row) s)
      (Sponge.new F))

/-- The deserialized input record of the harness (`CircuitInput`), carrying
the claimed SVD data `d`, `m`, `u`, `v`. -/
structure CircuitInput (α : Type) where
  d : List α
  m : List (List α)
  u : List (List α)
  v : List (List α)

/-- The challenge derivation of `zk_random_verif_algo`: a constant `zero` cell
is loaded, a fresh Poseidon sponge absorbs `[zero]`, and the squeezed element
is the `init_rand` passed to `check_svd` (which reuses it for all three
`verify_mul` calls).  The input record is in scope but contributes nothing to
the sponge. -/
def zk_random_verif_init_rand {F α : Type} [CommRing F] (H : List F → F)
    (_input : CircuitInput α) : F :=
  Sponge.squeeze H ((Sponge.new F).update [(0 : F)])

/-! Helper lemmas about the embedded operations. -/

theorem innerProd_eq_sum {F : Type} [CommRing F] (u : List F) :
    ∀ w : List F, innerProd u w =
      ∑ i ∈ Finset.range (min u.length w.length), u.getD i 0 * w.getD i 0 := by
  induction u with
  | nil => intro w; simp [innerProd]
  | cons x u ih =>
    intro w
    cases w with
    | nil => simp [innerProd]
    | cons y w =>
      show x * y + innerProd u w = _
      rw [ih w]
      simp only [List.length_cons, Nat.succ_min_succ, Finset.sum_range_succ',
        List.getD_cons_succ, List.getD_cons_zero]
      ring

theorem innerProd_eq_sum_len {F : Type} [CommRing F] (u w : List F) (m : ℕ)
    (hu : u.length = m) (hw : w.length = m) :
    innerProd u w = ∑ j ∈ Finset.range m, u.getD j 0 * w.getD j 0 := by
  rw [innerProd_eq_sum, hu, hw, Nat.min_self]

theorem field_mat_vec_mul_length {F : Type} [CommRing F] (a : List (List F)) (v : List F) :
    (field_mat_vec_mul a v).length = a.length :=
  List.length_map a _

theorem field_mat_vec_mul_getD {F : Type} [CommRing F] (a : List (List F)) (v : List F)
    (i : ℕ) (hi : i < a.length) :
    (field_mat_vec_mul a v).getD i 0 = innerProd (a.getD i []) v := by
  rw [List.getD_eq_getElem _ _ (by simpa [field_mat_vec_mul] using hi),
    List.getD_eq_getElem _ _ hi]
  simp [field_mat_vec_mul]

theorem foldl_add_eq_sum {F : Type} [CommRing F] (f : ℕ → F) :
    ∀ (n : ℕ) (c : F), (List.range n).foldl (fun s k => s + f k) c =
      c + ∑ k ∈ Finset.range n, f k := by
  intro n
  induction n with
  | zero => intro c; simp
  | succ n ih =>
    intro c
    rw [List.range_succ, List.foldl_append, ih, Finset.sum_range_succ, List.foldl_cons,
      List.foldl_nil, add_assoc]

theorem getD_map_range {β : Type} (f : ℕ → β) (d : β) {i n : ℕ} (h : i < n) :
    ((List.range n).map f).getD i d = f i := by
  rw [List.getD_eq_getElem _ _ (by simpa using h)]
  simp

theorem powersAux_eq {F : Type} [CommRing F] (r : F) :
    ∀ (d : ℕ) (x : F), powersAux r x d = (List.range d).map fun i => x * r ^ i := by
  intro d
  induction d with
  | zero => intro x; simp [powersAux]
  | succ n ih =>
    intro x
    show x :: powersAux r (x * r) n = _
    rw [ih (x * r), List.range_succ_eq_map, List.map_cons, List.map_map]
    congr 1
    · simp
    · apply List.map_congr_left
      intro i _
      simp only [Function.comp_apply, pow_succ]
      ring

theorem powerVec_eq {F : Type} [CommRing F] (r : F) (d : ℕ) :
    powerVec r d = (List.range d).map fun i => r ^ i := by
  rw [powerVec, powersAux_eq]
  apply List.map_congr_left
  intro i _
  rw [one_mul]

theorem powerVec_length {F : Type} [CommRing F] (r : F) (d : ℕ) :
    (powerVec r d).length = d := by
  rw [powerVec_eq]; simp

theorem powerVec_getD {F : Type} [CommRing F] (r : F) {d j : ℕ} (hj : j < d) :
    (powerVec r d).getD j 0 = r ^ j := by
  rw [powerVec_eq, getD_map_range _ _ hj]

theorem IsRect.row_len {α : Type} {m : List (List α)} {rows cols : ℕ}
    (h : IsRect m rows cols) {i : ℕ} (hi : i < rows) :
    (m.getD i []).length = cols := by
  have hlen : i < m.length := by rw [h.1]; exact hi
  rw [List.getD_eq_getElem _ _ hlen]
  exact h.2 _ (List.getElem_mem hlen)

theorem mat_vec_entry {F : Type} [CommRing F] (c : List (List F)) (v : List F)
    (m : ℕ) (hv : v.length = m) {i : ℕ} (hi : i < c.length)
    (hrow : (c.getD i []).length = m) :
    (field_mat_vec_mul c v).getD i 0 = ∑ j ∈ Finset.range m, matGet c i j * v.getD j 0 := by
  rw [field_mat_vec_mul_getD _ _ _ hi, innerProd_eq_sum_len _ _ m hrow hv]
  rfl

theorem mat_mat_vec_entry {F : Type} [CommRing F] (a b : List (List F)) (v : List F)
    (m : ℕ) (hv : v.length = m) (hb : ∀ row ∈ b, row.length = m)
    {i : ℕ} (hi : i < a.length) (hai : (a.getD i []).length = b.length) :
    (field_mat_vec_mul a (field_mat_vec_mul b v)).getD i 0 =
      ∑ j ∈ Finset.range m, matProdEntry a b b.length i j * v.getD j 0 := by
  rw [field_mat_vec_mul_getD _ _ _ hi,
    innerProd_eq_sum_len _ _ b.length hai (field_mat_vec_mul_length b v)]
  have hbv : ∀ k < b.length,
      (field_mat_vec_mul b v).getD k 0 = ∑ j ∈ Finset.range m, matGet b k j * v.getD j 0 := by
    intro k hk
    exact mat_vec_entry b v m hv hk (by
      rw [List.getD_eq_getElem _ _ hk]
      exact hb _ (List.getElem_mem hk))
  calc
    ∑ k ∈ Finset.range b.length, (a.getD i []).getD k 0 * (field_mat_vec_mul b v).getD k 0
        = ∑ k ∈ Finset.range b.length, ∑ j ∈ Finset.range m,
            matGet a i k * (matGet b k j * v.getD j 0) := by
          apply Finset.sum_congr rfl
          intro k hk
          rw [hbv k (Finset.mem_range.mp hk), Finset.mul_sum]
          rfl
    _ = ∑ j ∈ Finset.range m, ∑ k ∈ Finset.range b.length,
            matGet a i k * (matGet b k j * v.getD j 0) := Finset.sum_comm
    _ = ∑ j ∈ Finset.range m, matProdEntry a b b.length i j * v.getD j 0 := by
          apply Finset.sum_congr rfl
          intro j _
          rw [matProdEntry, Finset.sum_mul]
          apply Finset.sum_congr rfl
          intro k _
          ring

theorem field_mat_mul_rect {F : Type} [CommRing F] (a b : List (List F)) :
    IsRect (field_mat_mul a b) a.length (b.getD 0 []).length := by
  constructor
  · simp [field_mat_mul]
  · intro row hrow
    rw [field_mat_mul, List.mem_map] at hrow
    obtain ⟨i, _, rfl⟩ := hrow
    simp

theorem field_mat_mul_entry {F : Type} [CommRing F] (a b : List (List F)) {i j : ℕ}
    (hi : i < a.length) (hj : j < (b.getD 0 []).length) :
    matGet (field_mat_mul a b) i j = matProdEntry a b (a.getD 0 []).length i j := by
  rw [matGet, field_mat_mul, getD_map_range _ _ hi, getD_map_range _ _ hj, matProdEntry,
    foldl_add_eq_sum, zero_add]

theorem verify_mul_iff {F : Type} [CommRing F] (a b : ZkMatrix F) (c_s : List (List F)) (r : F)
    (ha : IsRect a.matrix a.num_rows a.num_col)
    (hb : IsRect b.matrix b.num_rows b.num_col)
    (hk : a.num_col = b.num_rows)
    (hcs : IsRect c_s a.num_rows b.num_col)
    (hn : 1 ≤ a.num_rows) :
    verify_mul_asserted_eqs a b c_s r ↔
      ∀ i < a.num_rows,
        (∑ j ∈ Finset.range b.num_col, matGet c_s i j * r ^ j) =
          ∑ j ∈ Finset.range b.num_col,
            matProdEntry a.matrix b.matrix b.num_rows i j * r ^ j := by
  have hd : (c_s.getD 0 []).length = b.num_col := hcs.row_len hn
  unfold verify_mul_asserted_eqs
  rw [hd, field_mat_vec_mul_length, hcs.1]
  refine forall_congr' fun i => imp_congr_right fun hi => ?_
  rw [mat_vec_entry c_s (powerVec r b.num_col) b.num_col (powerVec_length r _)
      (by rw [hcs.1]; exact hi) (hcs.row_len hi),
    mat_mat_vec_entry a.matrix b.matrix (powerVec r b.num_col) b.num_col
      (powerVec_length r _)
      (fun row hrow => hb.2 row hrow)
      (by rw [ha.1]; exact hi)
      (by rw [ha.row_len hi, hk, hb.1]),
    hb.1]
  have hsum : ∑ j ∈ Finset.range b.num_col,
      matProdEntry a.matrix b.matrix b.num_rows i j * (powerVec r b.num_col).getD j 0 =
      ∑ j ∈ Finset.range b.num_col, matProdEntry a.matrix b.matrix b.num_rows i j * r ^ j :=
    Finset.sum_congr rfl fun j hj => by rw [powerVec_getD r (Finset.mem_range.mp hj)]
  have hsum2 : ∑ j ∈ Finset.range b.num_col,
      matGet c_s i j * (powerVec r b.num_col).getD j 0 =
      ∑ j ∈ Finset.range b.num_col, matGet c_s i j * r ^ j :=
    Finset.sum_congr rfl fun j hj => by rw [powerVec_getD r (Finset.mem_range.mp hj)]
  rw [hsum, hsum2]

theorem val_add_window {p t : ℕ} [NeZero p] (hp : 2 * t < p) (x : ZMod p) :
    ((x + (t : ZMod p)).val < 2 * t) ↔ (x.val < t ∨ p - t ≤ x.val) := by
  have htp : t < p := by omega
  have hx : x.val < p := ZMod.val_lt x
  rw [ZMod.val_add, ZMod.val_natCast, Nat.mod_eq_of_lt htp]
  rcases Nat.lt_or_ge (x.val + t) p with h | h
  · rw [Nat.mod_eq_of_lt h]
    omega
  · have h2 : (x.val + t) % p = x.val + t - p := by
      rw [Nat.mod_eq_sub_mod h, Nat.mod_eq_of_lt (by omega)]
    rw [h2]
    omega

theorem val_sub_lt_iff {p mb : ℕ} [NeZero p] (hp : 2 ^ (mb + 1) ≤ p) {a b : ZMod p}
    (ha : a.val < 2 ^ mb) (hb : b.val < 2 ^ mb) :
    ((a - b).val < 2 ^ mb) ↔ b.val ≤ a.val := by
  have hpow : 2 ^ (mb + 1) = 2 ^ mb + 2 ^ mb := by
    rw [pow_succ]
    ring
  constructor
  · intro h
    by_contra hc
    push_neg at hc
    have hvs : (b - a).val = b.val - a.val := ZMod.val_sub (Nat.le_of_lt hc)
    have hne : b - a ≠ 0 := by
      intro h0
      have hz : (b - a).val = 0 := by
        rw [h0, ZMod.val_zero]
      omega
    have hab : a - b = -(b - a) := by ring
    rw [hab, ZMod.neg_val, if_neg hne, hvs] at h
    have hbp : b.val < p := ZMod.val_lt b
    omega
  · intro h
    rw [ZMod.val_sub h]
    omega

theorem check_mat_diff_run_ok {p : ℕ} (a b : List (List (ZMod p))) (n c t : ℕ)
    (ha : IsRect a n c) (hb : IsRect b n c) (hn : 1 ≤ n) :
    check_mat_diff a b t = Except.ok (check_mat_diff_cs a b t) := by
  cases a with
  | nil =>
    exfalso
    have := ha.1
    simp at this
    omega
  | cons a0 arest =>
    cases b with
    | nil =>
      exfalso
      have := hb.1
      simp at this
      omega
    | cons b0 brest =>
      have h1 : (a0 :: arest).length = (b0 :: brest).length := by
        rw [ha.1, hb.1]
      have ha0 : a0.length = c := ha.2 a0 (List.mem_cons_self _ _)
      have hb0 : b0.length = c := hb.2 b0 (List.mem_cons_self _ _)
      have h2 : a0.length = b0.length := by omega
      have h3 : ∀ i < (a0 :: arest).length,
          a0.length ≤ ((a0 :: arest).getD i []).length ∧
          a0.length ≤ ((b0 :: brest).getD i []).length := by
        intro i hi
        have hi' : i < n := by rw [← ha.1]; exact hi
        have hia := ha.row_len hi'
        have hib := hb.row_len hi'
        omega
      simp only [check_mat_diff, if_pos h1, if_pos h2, if_pos h3]

/-! Claims about `ZkMatrix::verify_mul`. -/

/-- C1: the claim is right and the code is wrong — a missing constraint.  The
specification requires `verify_mul` to assert `c_s·v = a·(b·v)` componentwise
so that a mismatch makes the constraint set unsatisfiable, and the method's
own documentation says it "checks if a*b = c_s in field multiplication"; but
the final loop calls `gate.is_equal` and discards the returned indicator
bit, so the emitted constraint set is satisfiable for every `a`, `b`, `c_s`
and `r` (first conjunct).  At the failing input `a = [[1]]`, `b = [[1]]`,
`c_s = [[2]]`, `r = 0` over `ZMod 5` the constraints are satisfied even
though the computed indicator bit is `0` and the intended componentwise
equality fails. -/
theorem c1_verify_mul_missing_assert {F : Type} [CommRing F] :
    (∀ (a b : ZkMatrix F) (c_s : List (List F)) (r : F), a.verify_mul b c_s r) ∧
    (ZkMatrix.mk ([[1]] : List (List (ZMod 5))) 1 1).verify_mul
      (ZkMatrix.mk [[1]] 1 1) [[2]] 0 ∧
    (ZkMatrix.mk ([[1]] : List (List (ZMod 5))) 1 1).verify_mul_bits
      (ZkMatrix.mk [[1]] 1 1) [[2]] 0 = [0] ∧
    ¬ verify_mul_asserted_eqs (ZkMatrix.mk ([[1]] : List (List (ZMod 5))) 1 1)
      (ZkMatrix.mk [[1]] 1 1) [[2]] 0 :=
  ⟨fun _ _ _ _ => rfl, rfl, by decide, by decide⟩

/-- C2: the claim is right and the code is wrong.  For a claimed product
fixed before the challenge and different from the true field product (at the
failing input `a = b = [[1]]`, `c_s = [[2]]` over `ZMod 5` the claimed entry
`2` differs from the true product entry `1`), the claim requires the emitted
constraint set to be satisfiable for fewer than `m = 1` of the `|field| = 5`
challenge values; but because the `is_equal` indicator bit is discarded the
set is satisfiable for all `5` challenges, so the claimed bound fails. -/
theorem c2_verify_mul_accepts_all :
    (∃ i < 1, ∃ j < 1, matGet ([[2]] : List (List (ZMod 5))) i j ≠
      matProdEntry ([[1]] : List (List (ZMod 5))) [[1]] 1 i j) ∧
    (Finset.filter
      (fun r => (ZkMatrix.mk ([[1]] : List (List (ZMod 5))) 1 1).verify_mul
        (ZkMatrix.mk [[1]] 1 1) [[2]] r) Finset.univ).card = 5 ∧
    ¬ (Finset.filter
      (fun r => (ZkMatrix.mk ([[1]] : List (List (ZMod 5))) 1 1).verify_mul
        (ZkMatrix.mk [[1]] 1 1) [[2]] r) Finset.univ).card < 1 :=
  ⟨⟨0, by decide, 0, by decide, by decide⟩, by decide, by decide⟩

/-- C3: completeness — for `c_s` exactly the raw field product `a·b` (as
computed by `field_mat_mul`) and any challenge `r`, `verify_mul(a, b, a·b, r)`
succeeds: every constraint it emits is satisfied.  Because of the missing
equality assertion recorded under C1 the first conjunct in fact holds for
every claimed product; the substance behind the claim — the associativity
identity `(a·b)·v = a·(b·v)` for the power vector `v` — does hold at the
honest product: the intended componentwise equalities are true and every
`is_equal` indicator bit the code computes evaluates to `1`. -/
theorem c3_verify_mul_complete {F : Type} [CommRing F] [DecidableEq F]
    (a b : ZkMatrix F) (r : F)
    (ha : IsRect a.matrix a.num_rows a.num_col)
    (hb : IsRect b.matrix b.num_rows b.num_col)
    (hk : a.num_col = b.num_rows)
    (hn : 1 ≤ a.num_rows) (hkk : 1 ≤ b.num_rows) (hm : 1 ≤ b.num_col) :
    a.verify_mul b (field_mat_mul a.matrix b.matrix) r ∧
    verify_mul_asserted_eqs a b (field_mat_mul a.matrix b.matrix) r ∧
    ∀ bit ∈ a.verify_mul_bits b (field_mat_mul a.matrix b.matrix) r, bit = 1 := by
  have heqs : verify_mul_asserted_eqs a b (field_mat_mul a.matrix b.matrix) r := by
    have hM : (b.matrix.getD 0 []).length = b.num_col := hb.row_len hkk
    have hK : (a.matrix.getD 0 []).length = a.num_col := ha.row_len hn
    have hrect : IsRect (field_mat_mul a.matrix b.matrix) a.num_rows b.num_col := by
      have h0 := field_mat_mul_rect a.matrix b.matrix
      rw [ha.1, hM] at h0
      exact h0
    rw [verify_mul_iff a b _ r ha hb hk hrect hn]
    intro i hi
    apply Finset.sum_congr rfl
    intro j hj
    rw [field_mat_mul_entry a.matrix b.matrix (by rw [ha.1]; exact hi)
      (by rw [hM]; exact Finset.mem_range.mp hj), hK, hk]
  refine ⟨rfl, heqs, ?_⟩
  intro bit hbit
  unfold ZkMatrix.verify_mul_bits at hbit
  rw [List.mem_map] at hbit
  obtain ⟨i, hi, rfl⟩ := hbit
  rw [List.mem_range] at hi
  unfold verify_mul_asserted_eqs at heqs
  unfold is_equal_val
  rw [if_pos (heqs i hi)]

theorem c3_witness :
    (IsRect ([[(1 : ZMod 5), 2], [3, 4]]) 2 2 ∧ (1 : ℕ) ≤ 2) ∧
    verify_mul_asserted_eqs (ZkMatrix.mk ([[(1 : ZMod 5), 2], [3, 4]]) 2 2)
      (ZkMatrix.mk [[1, 0], [0, 1]] 2 2)
      (field_mat_mul [[(1 : ZMod 5), 2], [3, 4]] [[1, 0], [0, 1]]) 3 :=
  ⟨⟨by decide, by decide⟩,
    (c3_verify_mul_complete (ZkMatrix.mk [[1, 2], [3, 4]] 2 2)
      (ZkMatrix.mk [[1, 0], [0, 1]] 2 2) 3
      (by decide) (by decide) rfl (by decide) (by decide) (by decide)).2.1⟩

/-! Claims about the challenge derivation, the transpose, and the constructor. -/

/-- C4: the challenge `init_rand` that the SVD harness passes to `check_svd`
is derived by Poseidon-hashing the constant `0` only — nothing of the input
record (the matrices `m`, `u`, `v` or the vector `d`) is absorbed — so two
runs on arbitrary different inputs derive the identical challenge value: the
challenge does not depend on any prover-chosen data. -/
theorem c4_challenge_ignores_input {F α : Type} [CommRing F] (H : List F → F)
    (input1 input2 : CircuitInput α) :
    zk_random_verif_init_rand H input1 = zk_random_verif_init_rand H input2 ∧
    zk_random_verif_init_rand H input1 = H [(0 : F)] :=
  ⟨rfl, rfl⟩

/-- C7: `transpose_matrix` is an exact involution on well-formed matrices —
`transpose(transpose a)` has the same `num_rows`, `num_col` and entrywise the
same field elements as `a` — and the transpose is pure reindexing: entry
`(i, j)` of the transpose is entry `(j, i)` of `a`, the same field element
(no constraint, no new witness, no quantization error is introduced). -/
theorem c7_transpose_involution {F : Type} [Zero F] (a : ZkMatrix F)
    (ha : IsRect a.matrix a.num_rows a.num_col) :
    a.transpose_matrix.transpose_matrix = a ∧
    a.transpose_matrix.num_rows = a.num_col ∧
    a.transpose_matrix.num_col = a.num_rows ∧
    ∀ i < a.num_col, ∀ j < a.num_rows,
      matGet a.transpose_matrix.matrix i j = matGet a.matrix j i := by
  have hentry : ∀ i < a.num_col, ∀ j < a.num_rows,
      matGet a.transpose_matrix.matrix i j = matGet a.matrix j i := by
    intro i hi j hj
    show ((((List.range a.num_col).map fun i2 =>
      (List.range a.num_rows).map fun j2 => matGet a.matrix j2 i2).getD i []).getD j 0) = _
    rw [getD_map_range _ _ hi, getD_map_range _ _ hj]
  refine ⟨?_, rfl, rfl, hentry⟩
  obtain ⟨mat, nr, nc⟩ := a
  obtain ⟨hlen, hrow⟩ := ha
  simp only at hlen hrow
  simp only [ZkMatrix.transpose_matrix, ZkMatrix.mk.injEq, and_true]
  apply List.ext_getElem
  · simp [hlen]
  · intro i hi1 hi2
    have hi : i < nr := by omega
    rw [List.getElem_map, List.getElem_range]
    apply List.ext_getElem
    · have hmem : mat[i] ∈ mat := List.getElem_mem hi2
      simp [hrow mat[i] hmem]
    · intro j hj1 hj2
      have hj : j < nc := by
        have hmem : mat[i] ∈ mat := List.getElem_mem hi2
        have := hrow mat[i] hmem
        omega
      rw [List.getElem_map, List.getElem_range]
      simp only [matGet]
      rw [getD_map_range _ _ hj, getD_map_range _ _ hi,
        List.getD_eq_getElem _ _ hi2, List.getD_eq_getElem _ _ hj2]

theorem c7_witness :
    IsRect ([[(1 : ZMod 5), 2], [3, 4]]) 2 2 ∧
    (ZkMatrix.mk ([[(1 : ZMod 5), 2], [3, 4]]) 2 2).transpose_matrix.transpose_matrix =
      ZkMatrix.mk ([[(1 : ZMod 5), 2], [3, 4]]) 2 2 :=
  ⟨by decide,
    (c7_transpose_involution (ZkMatrix.mk [[1, 2], [3, 4]] 2 2) (by decide)).1⟩

/-- C8: `ZkMatrix::new` on a matrix with zero rows panics with an
out-of-bounds index — it reads `matrix[0].len()` before any check — while the
eagerly checked shape precondition (the `assert!` loop) covers only ragged
rows of a nonempty matrix; a nonempty matrix with equal-length rows is
accepted.  The empty-matrix edge case at the public constructor is therefore
an unchecked index panic, not a validated precondition. -/
theorem c8_new_empty_panics {α F : Type} :
    (∀ quantize : α → F,
      ZkMatrix.new quantize ([] : List (List α)) = Except.error PanicKind.indexOutOfBounds) ∧
    (∀ (quantize : α → F) (r0 : List α) (rest : List (List α)),
      (∃ row ∈ r0 :: rest, row.length ≠ r0.length) →
      ZkMatrix.new quantize (r0 :: rest) = Except.error PanicKind.assertionFailed) ∧
    (∀ (quantize : α → F) (r0 : List α) (rest : List (List α)),
      (∀ row ∈ r0 :: rest, row.length = r0.length) →
      ∃ A, ZkMatrix.new quantize (r0 :: rest) = Except.ok A) := by
  refine ⟨fun _ => rfl, ?_, ?_⟩
  · intro quantize r0 rest hragged
    have hnot : ¬ ∀ row ∈ r0 :: rest, row.length = r0.length := by
      intro hall
      obtain ⟨row, hmem, hne⟩ := hragged
      exact hne (hall row hmem)
    simp only [ZkMatrix.new, if_neg hnot]
  · intro quantize r0 rest hall
    exact ⟨{ matrix := (r0 :: rest).map fun row => row.map quantize,
             num_rows := (r0 :: rest).length, num_col := r0.length },
      by simp only [ZkMatrix.new, if_pos hall]⟩

theorem c8_witness :
    ((∃ row ∈ ([[0], [1, 2]] : List (List (ZMod 5))), row.length ≠ 1) ∧
      ZkMatrix.new (fun x : ZMod 5 => x) [[0], [1, 2]] =
        Except.error PanicKind.assertionFailed) ∧
    ((∀ row ∈ ([[0], [3]] : List (List (ZMod 5))), row.length = 1) ∧
      ∃ A, ZkMatrix.new (fun x : ZMod 5 => x) [[0], [3]] = Except.ok A) :=
  ⟨⟨by decide,
      c8_new_empty_panics.2.1 (fun x : ZMod 5 => x) [0] [[1, 2]] (by decide)⟩,
    ⟨by decide,
      c8_new_empty_panics.2.2 (fun x : ZMod 5 => x) [0] [[3]] (by decide)⟩⟩

/-- C9: `ZkVector::entries_less_than` has the unstated precondition that the
vector is nonempty — on a zero-length vector the loop bound
`self.v.len() - 1` underflows in unsigned arithmetic, a panic, instead of
emitting an (empty) set of constraints; for every nonempty vector the
constraints are emitted without panic. -/
theorem c9_entries_less_than_empty (p max_bits : ℕ) :
    (ZkVector.mk ([] : List (ZMod p))).entries_less_than max_bits =
      Except.error PanicKind.subtractUnderflow ∧
    ∀ zv : ZkVector (ZMod p), zv.v ≠ [] →
      zv.entries_less_than max_bits =
        Except.ok (zv.entries_less_than_cs max_bits (zv.v.length - 1)) := by
  constructor
  · rfl
  · intro zv hne
    have hlen : 1 ≤ zv.v.length := by
      cases hv : zv.v with
      | nil => exact absurd hv hne
      | cons x xs => simp [hv]
    simp only [ZkVector.entries_less_than, usizeSub, if_pos hlen]

theorem c9_witness :
    (([(0 : ZMod 5)] : List (ZMod 5)) ≠ []) ∧
    (ZkVector.mk [(0 : ZMod 5)]).entries_less_than 3 =
      Except.ok ((ZkVector.mk [(0 : ZMod 5)]).entries_less_than_cs 3 0) :=
  ⟨by simp,
    (c9_entries_less_than_empty 5 3).2 (ZkVector.mk [0]) (by simp)⟩

/-- C6: on a vector of length `n ≥ 1`, `entries_less_than(max_bits)`
range-checks each of the `n` entries into `[0, 2^max_bits)` and each
consecutive difference `v[i] - v[i+1]` (for `i` in `0..n-1`) into
`[0, 2^max_bits)`; when the field is large enough (`2^(max_bits+1) ≤ p`) the
emitted constraints are satisfiable exactly when every entry's canonical
representative lies below `2^max_bits` (the entry is non-negative and
bounded) and the representatives are sorted in non-increasing order — so any
negative, out-of-range, or out-of-order vector makes the constraints
unsatisfiable. -/
theorem c6_entries_less_than_sorted {p : ℕ} [NeZero p] (zv : ZkVector (ZMod p))
    (max_bits : ℕ) (hne : zv.v ≠ []) (hp : 2 ^ (max_bits + 1) ≤ p) :
    zv.entries_less_than max_bits =
      Except.ok (zv.entries_less_than_cs max_bits (zv.v.length - 1)) ∧
    (zv.entries_less_than_cs max_bits (zv.v.length - 1) ↔
      (∀ x ∈ zv.v, x.val < 2 ^ max_bits) ∧
      List.Chain' (fun x y : ZMod p => y.val ≤ x.val) zv.v) := by
  have hlen : 1 ≤ zv.v.length := by
    cases hv : zv.v with
    | nil => exact absurd hv hne
    | cons x xs => simp [hv]
  constructor
  · simp only [ZkVector.entries_less_than, usizeSub, if_pos hlen]
  · unfold ZkVector.entries_less_than_cs
    constructor
    · rintro ⟨h1, h2⟩
      constructor
      · intro x hx
        obtain ⟨i, hi, rfl⟩ := List.mem_iff_getElem.mp hx
        have hb := h1 i hi
        rwa [List.getD_eq_getElem _ _ hi] at hb
      · rw [List.chain'_iff_get]
        intro i hi
        have hi1 : i < zv.v.length := by omega
        have hi2 : i + 1 < zv.v.length := by omega
        have hd := h2 i (by omega)
        have ha := h1 i hi1
        have hb := h1 (i + 1) hi2
        rw [List.getD_eq_getElem _ _ hi1, List.getD_eq_getElem _ _ hi2] at hd
        rw [List.getD_eq_getElem _ _ hi1] at ha
        rw [List.getD_eq_getElem _ _ hi2] at hb
        have hle := (val_sub_lt_iff hp ha hb).mp hd
        simpa [List.get_eq_getElem] using hle
    · rintro ⟨h1, h2⟩
      constructor
      · intro i hi
        rw [List.getD_eq_getElem _ _ hi]
        exact h1 _ (List.getElem_mem hi)
      · intro i hi
        have hi1 : i < zv.v.length := by omega
        have hi2 : i + 1 < zv.v.length := by omega
        rw [List.getD_eq_getElem _ _ hi1, List.getD_eq_getElem _ _ hi2]
        have ha := h1 _ (List.getElem_mem hi1)
        have hb := h1 _ (List.getElem_mem hi2)
        apply (val_sub_lt_iff hp ha hb).mpr
        have hch := List.chain'_iff_get.mp h2 i (by omega)
        simpa [List.get_eq_getElem] using hch

theorem c6_witness :
    (([(1 : ZMod 5), 0] : List (ZMod 5)) ≠ [] ∧ 2 ^ (1 + 1) ≤ 5) ∧
    (ZkVector.mk [(1 : ZMod 5), 0]).entries_less_than 1 =
      Except.ok ((ZkVector.mk [(1 : ZMod 5), 0]).entries_less_than_cs 1 1) :=
  ⟨⟨by simp, by norm_num⟩,
    (c6_entries_less_than_sorted (ZkVector.mk [1, 0]) 1 (by simp) (by norm_num)).1⟩

theorem getD_take {α : Type} (l : List α) (d : α) {j n : ℕ} (hj : j < n) :
    (l.take n).getD j d = l.getD j d := by
  rcases Nat.lt_or_ge j l.length with hl | hl
  · rw [List.getD_eq_getElem _ _ (by simp; omega), List.getD_eq_getElem _ _ hl,
      List.getElem_take]
  · rw [List.getD_eq_default _ _ (by simp; omega), List.getD_eq_default _ _ hl]

theorem getD_map {α β : Type} (f : α → β) (l : List α) (d : β) (d2 : α) {i : ℕ}
    (hi : i < l.length) : (l.map f).getD i d = f (l.getD i d2) := by
  rw [List.getD_eq_getElem _ _ (by simpa using hi), List.getD_eq_getElem _ _ hi,
    List.getElem_map]

/-- C5 counterexample: the claim asserts `check_mat_diff(a, a, tol)` succeeds
for every `tol ≥ 0`, but at `tol = 0` (scaled tolerance
`quant_tol = (0 * 2^P) as u64 = 0`) the emitted range check on identical
matrices is `val(0 + 0) < 2*0`, which is false: the constraint set on
`a = b = [[0]]` is emitted without panic and is unsatisfiable. -/
theorem c5_counterexample :
    check_mat_diff ([[0]] : List (List (ZMod 5))) [[0]] 0 =
      Except.ok (check_mat_diff_cs ([[0]] : List (List (ZMod 5))) [[0]] 0) ∧
    ¬ check_mat_diff_cs ([[0]] : List (List (ZMod 5))) [[0]] 0 := by
  constructor
  · rfl
  · decide

/-- C5 (amended): for rectangular equal-shape matrices over a field with
`2 * quant_tol < p`, `check_mat_diff` panics on nothing and emits one range
check per entry; when the scaled tolerance `quant_tol = (tol * 2^P) as u64`
is at least `1`, `check_mat_diff(a, a, tol)` succeeds, and in general the
constraints are satisfiable exactly when every signed difference lies in the
half-open window `[-quant_tol, quant_tol)` — the canonical representative of
`a_ij - b_ij` is below `quant_tol` or at least `p - quant_tol`.  In
particular the constraint set is unsatisfiable whenever some entrywise
difference exceeds the tolerance (and also at the boundary
`a_ij - b_ij = quant_tol` exactly, which the original claim's closed
interval `[-tol, tol]` would admit). -/
theorem c5_check_mat_diff {p : ℕ} [NeZero p] (a b : List (List (ZMod p)))
    (n c quant_tol : ℕ) (ha : IsRect a n c) (hb : IsRect b n c) (hn : 1 ≤ n)
    (ht : 1 ≤ quant_tol) (hp : 2 * quant_tol < p) :
    (check_mat_diff a a quant_tol = Except.ok (check_mat_diff_cs a a quant_tol) ∧
      check_mat_diff_cs a a quant_tol) ∧
    check_mat_diff a b quant_tol = Except.ok (check_mat_diff_cs a b quant_tol) ∧
    (check_mat_diff_cs a b quant_tol ↔
      ∀ i < n, ∀ j < c,
        (matGet a i j - matGet b i j).val < quant_tol ∨
          p - quant_tol ≤ (matGet a i j - matGet b i j).val) := by
  refine ⟨⟨check_mat_diff_run_ok a a n c quant_tol ha ha hn, ?_⟩,
    check_mat_diff_run_ok a b n c quant_tol ha hb hn, ?_⟩
  · intro i _ j _
    rw [sub_self, zero_add, ZMod.val_natCast, Nat.mod_eq_of_lt (by omega)]
    omega
  · unfold check_mat_diff_cs
    rw [ha.1, ha.row_len hn]
    refine forall_congr' fun i => imp_congr_right fun _ => ?_
    refine forall_congr' fun j => imp_congr_right fun _ => ?_
    exact val_add_window hp _

theorem c5_witness :
    (IsRect ([[(1 : ZMod 5)]]) 1 1 ∧ 1 ≤ 1 ∧ 2 * 1 < 5) ∧
    (check_mat_diff ([[(1 : ZMod 5)]]) [[1]] 1 =
        Except.ok (check_mat_diff_cs ([[(1 : ZMod 5)]]) [[1]] 1) ∧
      check_mat_diff_cs ([[(1 : ZMod 5)]]) [[1]] 1) :=
  ⟨⟨by decide, by norm_num, by norm_num⟩,
    (c5_check_mat_diff [[1]] [[1]] 1 1 1 (by decide) (by decide) (by norm_num)
      (by norm_num) (by norm_num)).1⟩

/-- C10 counterexample: the claim says any row of `a` or `b` shorter than the
first row of `a` causes an out-of-bounds panic, but when the short row is the
first row of `b` the eager `assert_eq!(a[0].len(), b[0].len())` fires first:
on `a = [[0, 0]]`, `b = [[0]]` the builder panics with an assertion failure,
not an index-out-of-bounds. -/
theorem c10_counterexample :
    check_mat_diff ([[0, 0]] : List (List (ZMod 5))) [[0]] 1 =
      Except.error PanicKind.assertionFailed ∧
    (Except.error PanicKind.assertionFailed : Except PanicKind Prop) ≠
      Except.error PanicKind.indexOutOfBounds :=
  ⟨rfl, fun h => PanicKind.noConfusion (Except.error.inj h)⟩

/-- C10 (amended): `check_mat_diff` validates shapes only by asserting
`a.len() == b.len()` and `a[0].len() == b[0].len()`, and then compares
exactly the indices `i < a.len()`, `j < a[0].len()`: when every row is at
least as long as `a[0]` the run succeeds and the emitted constraints depend
only on the first `a[0].len()` entries of each row (entries of longer rows
are never compared); when some accessed row of `a` or `b` is shorter than
`a[0]` the builder panics with an index out of bounds — except that a first
row of `b` whose length differs from `a[0]` is caught by the eager length
assertion, an assertion panic rather than an out-of-bounds one. -/
theorem c10_check_mat_diff_ragged {p : ℕ} :
    (∀ (a b : List (List (ZMod p))) (t : ℕ) (a0 : List (ZMod p))
        (arest : List (List (ZMod p))),
      a = a0 :: arest →
      a.length = b.length →
      (b.getD 0 []).length = a0.length →
      (∀ i < a.length, a0.length ≤ (a.getD i []).length ∧
        a0.length ≤ (b.getD i []).length) →
      check_mat_diff a b t = Except.ok (check_mat_diff_cs a b t) ∧
        (check_mat_diff_cs a b t ↔
          check_mat_diff_cs (a.map fun row => row.take a0.length)
            (b.map fun row => row.take a0.length) t)) ∧
    (∀ (a b : List (List (ZMod p))) (t : ℕ) (a0 : List (ZMod p))
        (arest : List (List (ZMod p))),
      a = a0 :: arest →
      a.length = b.length →
      (b.getD 0 []).length = a0.length →
      (∃ i < a.length, (a.getD i []).length < a0.length ∨
        (b.getD i []).length < a0.length) →
      check_mat_diff a b t = Except.error PanicKind.indexOutOfBounds) ∧
    (∀ (a b : List (List (ZMod p))) (t : ℕ) (a0 : List (ZMod p))
        (arest : List (List (ZMod p))),
      a = a0 :: arest →
      a.length = b.length →
      (b.getD 0 []).length ≠ a0.length →
      check_mat_diff a b t = Except.error PanicKind.assertionFailed) := by
  refine ⟨?_, ?_, ?_⟩
  · rintro a b t a0 arest rfl hlen hb0 hlong
    cases b with
    | nil => simp at hlen
    | cons b0 brest =>
      have hb0' : a0.length = b0.length := by
        simp only [List.getD_cons_zero] at hb0
        omega
      have hcond : ∀ i < (a0 :: arest).length,
          a0.length ≤ ((a0 :: arest).getD i []).length ∧
          a0.length ≤ ((b0 :: brest).getD i []).length := hlong
      constructor
      · simp only [check_mat_diff, if_pos hlen, if_pos hb0', if_pos hcond]
      · unfold check_mat_diff_cs
        have hmap0 : ((((a0 :: arest).map fun row => row.take a0.length).getD 0 [])).length =
            a0.length := by
          simp
        have h00 : ((a0 :: arest).getD 0 []).length = a0.length := by simp
        rw [List.length_map, hmap0, h00]
        refine forall_congr' fun i => imp_congr_right fun hi => ?_
        refine forall_congr' fun j => imp_congr_right fun hj => ?_
        have hib : i < (b0 :: brest).length := by omega
        have hga : matGet ((a0 :: arest).map fun row => row.take a0.length) i j =
            matGet (a0 :: arest) i j := by
          simp only [matGet]
          rw [getD_map _ _ _ [] hi, getD_take _ _ hj]
        have hgb : matGet ((b0 :: brest).map fun row => row.take a0.length) i j =
            matGet (b0 :: brest) i j := by
          simp only [matGet]
          rw [getD_map _ _ _ [] hib, getD_take _ _ hj]
        rw [hga, hgb]
  · rintro a b t a0 arest rfl hlen hb0 hshort
    cases b with
    | nil => simp at hlen
    | cons b0 brest =>
      have hb0' : a0.length = b0.length := by
        simp only [List.getD_cons_zero] at hb0
        omega
      have hnot : ¬ ∀ i < (a0 :: arest).length,
          a0.length ≤ ((a0 :: arest).getD i []).length ∧
          a0.length ≤ ((b0 :: brest).getD i []).length := by
        intro hall
        obtain ⟨i, hi, hcase⟩ := hshort
        have := hall i hi
        omega
      simp only [check_mat_diff, if_pos hlen, if_pos hb0', if_neg hnot]
  · rintro a b t a0 arest rfl hlen hb0
    cases b with
    | nil => simp at hlen
    | cons b0 brest =>
      have hb0' : ¬ a0.length = b0.length := by
        simp only [List.getD_cons_zero] at hb0
        omega
      simp only [check_mat_diff, if_pos hlen, if_neg hb0']

theorem c10_witness :
    (([[(0 : ZMod 5)], []] : List (List (ZMod 5))) = [0] :: [[]] ∧
      ([[(0 : ZMod 5)], []] : List (List (ZMod 5))).length =
        ([[0], [0]] : List (List (ZMod 5))).length ∧
      (([[(0 : ZMod 5)], [0]] : List (List (ZMod 5))).getD 0 []).length =
        [(0 : ZMod 5)].length ∧
      (∃ i < ([[(0 : ZMod 5)], []] : List (List (ZMod 5))).length,
        (([[(0 : ZMod 5)], []] : List (List (ZMod 5))).getD i []).length <
          [(0 : ZMod 5)].length ∨
        (([[(0 : ZMod 5)], [0]] : List (List (ZMod 5))).getD i []).length <
          [(0 : ZMod 5)].length)) ∧
    check_mat_diff ([[(0 : ZMod 5)], []]) [[0], [0]] 1 =
      Except.error PanicKind.indexOutOfBounds :=
  ⟨⟨rfl, rfl, rfl, ⟨1, by norm_num, Or.inl (by norm_num)⟩⟩,
    c10_check_mat_diff_ragged.2.1 [[0], []] [[0], [0]] 1 [0] [[]] rfl rfl rfl
      ⟨1, by norm_num, Or.inl (by norm_num)⟩⟩
